import Mathlib

/-!
Verification of the AST-to-template enumeration engine of
`ticket_django_13525/better_regex_parser.py`, shallowly embedded in Lean.

Characters are modelled by their code points (`Nat`), character sets by
`List Nat`, and the Python generator pipeline by eager `List`s inside
`Except` (an exception aborts the whole enumeration, exactly as forcing a
Python generator with `list(...)` does).
-/

set_option maxRecDepth 100000

namespace BetterRegex

abbrev GName := String

/-- ALLOWED_URL_CHARACTERS = set(string.digits + string.ascii_letters +
string.punctuation): exactly the code points 33..126. -/
def allowedURLChars : List Nat := List.range' 33 94

/-- sre_parse.DIGITS: the ten decimal digits, code points 48..57. -/
def digitChars : List Nat := List.range' 48 10

/-- sre_parse.WHITESPACE: space, tab, newline, carriage return, vertical
tab, form feed. -/
def whitespaceChars : List Nat := [32, 9, 10, 13, 11, 12]

/-- set(string.ascii_letters + string.digits + underscore): digits,
upper-case letters, underscore, lower-case letters. -/
def wordChars : List Nat :=
  List.range' 48 10 ++ List.range' 65 26 ++ [95] ++ List.range' 97 26

/-- Character-class category markers (sre_constants CATEGORY_*); `other`
stands for any category that has no CATEGORY_MAP entry. -/
inductive CatId where
  | digit
  | notDigit
  | space
  | notSpace
  | word
  | notWord
  | other (n : Nat)
deriving DecidableEq

/-- The exceptions the Python code can raise while enumerating:
NotImplementedError for an unknown category, the ValueError for a reserved
group name, the ValueError raised by min() on an empty candidate set, and
AssertionError for the two inline asserts. -/
inductive RErr where
  | unsupportedCategory (c : CatId)
  | invalidGroupName
  | emptyClass
  | assertFailed
deriving DecidableEq

/-- Category, a namedtuple with fields char_set and default_mapping. -/
structure CatEntry where
  char_set : List Nat
  default_mapping : Nat
deriving DecidableEq

/-- CATEGORY_MAP from the source.  Note that CATEGORY_NOT_WORD is mapped,
as in the source, to the set of WORD characters (not to its complement),
with default representative code 33. -/
def categoryMap : CatId → Option CatEntry
  | .digit => some ⟨digitChars, 48⟩
  | .notDigit => some ⟨allowedURLChars.filter (fun c => decide (c ∉ digitChars)), 120⟩
  | .space => some ⟨whitespaceChars, 32⟩
  | .notSpace => some ⟨allowedURLChars.filter (fun c => decide (c ∉ whitespaceChars)), 120⟩
  | .word => some ⟨wordChars, 88⟩
  | .notWord => some ⟨wordChars, 33⟩
  | .other _ => none

/-- One-character string from a code point (Python chr). -/
def charStr (c : Nat) : String := String.singleton (Char.ofNat c)

/-- The placeholder marker written into templates for a group name. -/
def marker (name : GName) : String := "%(" ++ name ++ ")s"

/-- The implicit name assigned to an unnamed group with AST id `gid`:
the source builds the string from gid - 1 in both parse_groupref and
parse_subpattern. -/
def implicitName (gid : Nat) : GName := "_" ++ Nat.repr (gid - 1)

/-- Minimum of a nonempty list, accumulator style. -/
def listMinFrom (x : Nat) : List Nat → Nat
  | [] => x
  | y :: ys => listMinFrom (min x y) ys

/-- Python min over a candidate character set: raises ValueError on an
empty sequence, modelled by the emptyClass error. -/
def minChar : List Nat → Except RErr Nat
  | [] => .error .emptyClass
  | x :: xs => .ok (listMinFrom x xs)

/-- Stable first-seen deduplication, accumulator of already-seen keys. -/
def uniqueListAux {α : Type} [DecidableEq α] (seen : List α) : List α → List α
  | [] => []
  | x :: xs =>
      if x ∈ seen then uniqueListAux seen xs
      else x :: uniqueListAux (seen ++ [x]) xs

/-- unique_list from the source: list(OrderedDict.fromkeys(l).keys()),
i.e. stable first-seen deduplication. -/
def uniqueList {α : Type} [DecidableEq α] (l : List α) : List α :=
  uniqueListAux [] l

/-- Python string repetition s * n. -/
def strRepeat (s : String) (n : Nat) : String :=
  String.join (List.replicate n s)

/-- A candidate triple: template fragment, required placeholder names
(ordered, first seen first), referenced placeholder names. -/
structure Triple where
  fmt : String
  args : List GName
  refs : List GName
deriving DecidableEq

/-- itertools.product over lists of triples (first factor varies
slowest). -/
def listProd : List (List Triple) → List (List Triple)
  | [] => [[]]
  | l :: ls => (l.map (fun t => (listProd ls).map (fun c => t :: c))).flatten

/-- Combining one product tuple in _normalize: concatenate the fragments,
unique_list the concatenated args, deduplicate the concatenated refs
(the source uses list(set(refs)); only membership in refs is ever
observable, so a stable dedup is a faithful model). -/
def mergeCombo (c : List Triple) : Triple :=
  ⟨String.join (c.map Triple.fmt),
   uniqueList ((c.map Triple.args).flatten),
   uniqueList ((c.map Triple.refs).flatten)⟩

/-- The body of _normalize after the per-clause dispatch: product of the
per-clause triple lists, one merged triple per product tuple. -/
def seqCombine (ts : List (List Triple)) : List Triple :=
  (listProd ts).map mergeCombo

/-- Lookup in the reverse group dictionary (dict.get). -/
def lookupName : List (Nat × GName) → Nat → Option GName
  | [], _ => none
  | (k, v) :: rest, gid => if k = gid then some v else lookupName rest gid

/-- Context, a namedtuple with fields pattern_reverse_groupdict and
in_unnamed_group. -/
structure Context where
  rev : List (Nat × GName)
  inUnnamedGroup : Bool
deriving DecidableEq

/-- One item of an In (character class) clause. -/
inductive InItem where
  | negate
  | lit (c : Nat)
  | range (lo hi : Nat)
  | cat (c : CatId)
deriving DecidableEq

/-- The reserved implicit-name check of parse_subpattern:
group_name[0] == underscore and group_name[1:].isdigit() (note that
isdigit is False on the empty string). -/
def badGroupName (s : GName) : Bool :=
  match s.data with
  | '_' :: c :: rest => (c :: rest).all (fun ch => ch.isDigit)
  | _ => false

/-- One step of the negated-class loop in parse_in: remove the characters
denoted by one item from the candidate set.  A second negate marker in
the tail trips the assert in the loop. -/
def removeItem (cand : List Nat) : InItem → Except RErr (List Nat)
  | .range lo hi => .ok (cand.filter (fun x => decide (¬(lo ≤ x ∧ x ≤ hi))))
  | .cat cid =>
      match categoryMap cid with
      | some e => .ok (cand.filter (fun x => decide (x ∉ e.char_set)))
      | none => .error (.unsupportedCategory cid)
  | .lit c => .ok (cand.filter (fun x => decide (x ≠ c)))
  | .negate => .error .assertFailed

/-- The whole negated-class loop: fold removeItem over the items after
the negate marker. -/
def applyNegItems (cand : List Nat) : List InItem → Except RErr (List Nat)
  | [] => .ok cand
  | item :: rest =>
      match removeItem cand item with
      | .error e => .error e
      | .ok c2 => applyNegItems c2 rest

/-- parse_in from the source.  An empty item list trips the
assert len(clause); a leading negate marker triggers the complement
computation followed by min; otherwise only the first item is looked at. -/
def parseIn : List InItem → Except RErr (List Triple)
  | [] => .error .assertFailed
  | .negate :: rest =>
      match applyNegItems allowedURLChars rest with
      | .error e => .error e
      | .ok cand =>
          match minChar cand with
          | .error e => .error e
          | .ok m => .ok [⟨charStr m, [], []⟩]
  | .lit c :: _ => .ok [⟨charStr c, [], []⟩]
  | .cat cid :: _ =>
      match categoryMap cid with
      | some e => .ok [⟨charStr e.default_mapping, [], []⟩]
      | none => .error (.unsupportedCategory cid)
  | .range lo _ :: _ => .ok [⟨charStr lo, [], []⟩]

mutual
/-- The regex AST nodes consumed by the dispatcher. -/
inductive RNode where
  | literal (c : Nat)
  | notLiteral (c : Nat)
  | anyChar
  | atAnchor
  | inClass (items : List InItem)
  | branch (alts : RAlts)
  | groupref (gid : Nat)
  | maxRepeat (mn mx : Nat) (sub : RSeq)
  | subpattern (gid : Option Nat) (sub : RSeq)
/-- A clause sequence (list of sibling nodes). -/
inductive RSeq where
  | nil
  | cons (hd : RNode) (tl : RSeq)
/-- The alternatives of a branch node. -/
inductive RAlts where
  | nil
  | cons (hd : RSeq) (tl : RAlts)
end

mutual
/-- dispatch_clause plus the DISPATCH_TABLE handlers, merged into one
exhaustive match.  Each arm is the faithful translation of the
corresponding parse_* generator of the source. -/
def dispatchClause (ctx : Context) : RNode → Except RErr (List Triple)
  | .literal c => .ok [⟨charStr c, [], []⟩]
  | .notLiteral c =>
      match minChar (allowedURLChars.filter (fun x => decide (x ≠ c))) with
      | .error e => .error e
      | .ok m => .ok [⟨charStr m, [], []⟩]
  | .anyChar => .ok [⟨".", [], []⟩]
  | .atAnchor => .ok [⟨"", [], []⟩]
  | .inClass items => parseIn items
  | .groupref gid =>
      let name := (lookupName ctx.rev gid).getD (implicitName gid)
      .ok [⟨marker name, [], [name]⟩]
  | .branch alts => dispatchAlts ctx alts
  | .maxRepeat mn mx sub =>
      if mn = 0 then
        if mx = 0 then .error .assertFailed
        else
          Except.map
            (fun inner => ⟨"", [], []⟩ ::
              (inner.filter (fun t => !(t.args.isEmpty && t.refs.isEmpty))).map
                (fun t => ⟨strRepeat t.fmt 1, t.args, t.refs⟩))
            (Except.map seqCombine (dispatchSeq ctx sub))
      else
        Except.map
          (fun inner => inner.map (fun t => ⟨strRepeat t.fmt mn, t.args, t.refs⟩))
          (Except.map seqCombine (dispatchSeq ctx sub))
  | .subpattern gid sub =>
      match gid with
      | some g =>
          match lookupName ctx.rev g with
          | some name =>
              if badGroupName name then .error .invalidGroupName
              else
                Except.map
                  (fun inner => ⟨marker name, [name], []⟩ ::
                    inner.filter (fun t => !t.args.isEmpty))
                  (Except.map seqCombine (dispatchSeq ctx sub))
          | none =>
              if ctx.inUnnamedGroup then
                Except.map (fun inner => inner.filter (fun t => !t.args.isEmpty))
                  (Except.map seqCombine (dispatchSeq ctx sub))
              else
                Except.map
                  (fun inner => ⟨marker (implicitName g), [implicitName g], []⟩ ::
                    inner.filter (fun t => !t.args.isEmpty))
                  (Except.map seqCombine (dispatchSeq ⟨ctx.rev, true⟩ sub))
      | none => Except.map seqCombine (dispatchSeq ctx sub)
/-- parse_branch: the union (concatenation, in order) of the combinator
results of the alternatives. -/
def dispatchAlts (ctx : Context) : RAlts → Except RErr (List Triple)
  | .nil => .ok []
  | .cons a rest =>
      match Except.map seqCombine (dispatchSeq ctx a) with
      | .error e => .error e
      | .ok ts =>
          match dispatchAlts ctx rest with
          | .error e => .error e
          | .ok rs => .ok (ts ++ rs)
/-- The per-clause dispatch list built at the top of _normalize. -/
def dispatchSeq (ctx : Context) : RSeq → Except RErr (List (List Triple))
  | .nil => .ok []
  | .cons n s =>
      match dispatchClause ctx n with
      | .error e => .error e
      | .ok t =>
          match dispatchSeq ctx s with
          | .error e => .error e
          | .ok ts => .ok (t :: ts)
end

/-- The function _normalize from the source: dispatch every clause, then take the
product and merge each tuple. -/
def normalizeSeq (ctx : Context) (s : RSeq) : Except RErr (List Triple) :=
  Except.map seqCombine (dispatchSeq ctx s)

/-- The unresolved-reference set computed in normalize:
start from set(refs) and discard every required name. -/
def unresolvedRefs (args refs : List GName) : List GName :=
  args.foldl (fun acc a => acc.filter (fun r => decide (r ≠ a))) (uniqueList refs)

/-- The keep condition of normalize: no unresolved references remain. -/
def keepTriple (t : Triple) : Bool :=
  (unresolvedRefs t.args t.refs).isEmpty

/-- reverse_groupdict from the source. -/
def reverseGroupdict (gd : List (GName × Nat)) : List (Nat × GName) :=
  gd.map (fun p => (p.2, p.1))

/-- normalize from the source, taken at the AST boundary: the raw-text
parsing done by re.sre_parse.parse is the external collaborator and out
of scope, so the model receives the parse tree and the groupdict. -/
def normalize (tree : RSeq) (gd : List (GName × Nat)) :
    Except RErr (List (String × List GName)) :=
  match normalizeSeq ⟨reverseGroupdict gd, false⟩ tree with
  | .error e => .error e
  | .ok ts => .ok ((ts.filter keepTriple).map (fun t => (t.fmt, t.args)))

/-- Decidable equality for Except results, needed to settle concrete
enumerations by decide. -/
def exceptDecEq {ε α : Type} [DecidableEq ε] [DecidableEq α] :
    (a b : Except ε α) → Decidable (a = b)
  | .error x, .error y =>
      match decEq x y with
      | .isTrue h => .isTrue (by rw [h])
      | .isFalse h => .isFalse (fun hc => h (by injection hc))
  | .error _, .ok _ => .isFalse (fun hc => Except.noConfusion hc)
  | .ok _, .error _ => .isFalse (fun hc => Except.noConfusion hc)
  | .ok x, .ok y =>
      match decEq x y with
      | .isTrue h => .isTrue (by rw [h])
      | .isFalse h => .isFalse (fun hc => h (by injection hc))

instance {ε α : Type} [DecidableEq ε] [DecidableEq α] : DecidableEq (Except ε α) :=
  exceptDecEq

/-- Build an RSeq from a plain list of nodes. -/
def seqOf : List RNode → RSeq
  | [] => .nil
  | n :: l => .cons n (seqOf l)

/-- Build branch alternatives from a plain list of sequences. -/
def altsOf : List RSeq → RAlts
  | [] => .nil
  | s :: l => .cons s (altsOf l)

mutual
/-- True when no capturing group inside the node carries a declared name
of the reserved shape (underscore followed by digits). -/
def nodeNoBad (rev : List (Nat × GName)) : RNode → Bool
  | .subpattern (some g) sub =>
      (match lookupName rev g with
       | some n => !badGroupName n
       | none => true) && seqNoBad rev sub
  | .subpattern none sub => seqNoBad rev sub
  | .branch alts => altsNoBad rev alts
  | .maxRepeat _ _ sub => seqNoBad rev sub
  | _ => true
/-- seqNoBad lifts nodeNoBad over a clause sequence. -/
def seqNoBad (rev : List (Nat × GName)) : RSeq → Bool
  | .nil => true
  | .cons n s => nodeNoBad rev n && seqNoBad rev s
/-- altsNoBad lifts seqNoBad over branch alternatives. -/
def altsNoBad (rev : List (Nat × GName)) : RAlts → Bool
  | .nil => true
  | .cons a l => seqNoBad rev a && altsNoBad rev l
end

/-- Classifier separating the two documented fatal errors from everything
else. -/
def isUnsupportedOrInvalid : RErr → Bool
  | .unsupportedCategory _ => true
  | .invalidGroupName => true
  | _ => false

-- Sanity checks against the unit tests of the source.

example :
    normalize (seqOf [.literal 116, .literal 101, .literal 115, .literal 116,
      .subpattern (some 1) (seqOf [.literal 103, .literal 114, .literal 111,
        .literal 117, .literal 112, .literal 80])]) [("P", 1)] =
    .ok [("test%(P)s", ["P"])] := by decide

example :
    normalize (seqOf [.subpattern (some 1) (seqOf [.inClass [.range 97 122]]),
      .literal 47, .groupref 1]) [] =
    .ok [("%(_0)s/%(_0)s", ["_0"])] := by decide

example :
    normalize (seqOf [.branch (altsOf
      [seqOf [.subpattern (some 1) (seqOf [.literal 102])],
       seqOf [.subpattern (some 2) (seqOf [.literal 115])]])]) [] =
    .ok [("%(_0)s", ["_0"]), ("%(_1)s", ["_1"])] := by decide

example :
    normalize (seqOf [.inClass [.negate, .cat .digit]]) [] =
    .ok [("!", [])] := by decide

example :
    normalize (seqOf [.inClass [.negate, .cat .notDigit]]) [] =
    .ok [("0", [])] := by decide

-- Helper lemmas about the deduplication and reference-resolution helpers.

theorem mem_uniqueListAux {α : Type} [DecidableEq α] (a : α) :
    ∀ (l seen : List α), a ∈ uniqueListAux seen l ↔ a ∈ l ∧ a ∉ seen := by
  intro l
  induction l with
  | nil => intro seen; simp [uniqueListAux]
  | cons x xs ih =>
      intro seen
      simp only [uniqueListAux]
      by_cases hx : x ∈ seen
      · rw [if_pos hx, ih seen]
        simp only [List.mem_cons]
        constructor
        · rintro ⟨h1, h2⟩; exact ⟨Or.inr h1, h2⟩
        · rintro ⟨h1, h2⟩
          rcases h1 with h1 | h1
          · subst h1; exact absurd hx h2
          · exact ⟨h1, h2⟩
      · rw [if_neg hx]
        constructor
        · intro h1
          rcases List.mem_cons.mp h1 with h1 | h1
          · subst h1; exact ⟨List.mem_cons_self _ _, hx⟩
          · rw [ih (seen ++ [x])] at h1
            exact ⟨List.mem_cons_of_mem _ h1.1,
              fun hc => h1.2 (List.mem_append_left _ hc)⟩
        · rintro ⟨h1, h2⟩
          by_cases hax : a = x
          · subst hax; exact List.mem_cons_self _ _
          · rcases List.mem_cons.mp h1 with h1 | h1
            · exact absurd h1 hax
            · refine List.mem_cons_of_mem _ ?_
              rw [ih (seen ++ [x])]
              refine ⟨h1, fun hc => ?_⟩
              rcases List.mem_append.mp hc with hc | hc
              · exact h2 hc
              · exact hax (List.mem_singleton.mp hc)

theorem mem_uniqueList {α : Type} [DecidableEq α] (a : α) (l : List α) :
    a ∈ uniqueList l ↔ a ∈ l := by
  unfold uniqueList
  rw [mem_uniqueListAux]
  simp

theorem nodup_uniqueListAux {α : Type} [DecidableEq α] :
    ∀ (l seen : List α), (uniqueListAux seen l).Nodup := by
  intro l
  induction l with
  | nil => intro seen; simp [uniqueListAux]
  | cons x xs ih =>
      intro seen
      simp only [uniqueListAux]
      by_cases hx : x ∈ seen
      · rw [if_pos hx]; exact ih seen
      · rw [if_neg hx, List.nodup_cons]
        refine ⟨?_, ih (seen ++ [x])⟩
        intro hc
        rw [mem_uniqueListAux] at hc
        exact hc.2 (by simp)

theorem nodup_uniqueList {α : Type} [DecidableEq α] (l : List α) :
    (uniqueList l).Nodup :=
  nodup_uniqueListAux l []

theorem foldl_filter_mem (args : List GName) :
    ∀ (init : List GName) (r : GName),
      r ∈ args.foldl (fun acc a => acc.filter (fun x => decide (x ≠ a))) init ↔
        r ∈ init ∧ r ∉ args := by
  induction args with
  | nil => intro init r; simp
  | cons a as ih =>
      intro init r
      simp only [List.foldl_cons]
      rw [ih]
      simp only [List.mem_filter, decide_eq_true_eq, List.mem_cons]
      constructor
      · rintro ⟨⟨h1, h2⟩, h3⟩
        exact ⟨h1, fun hc => hc.elim h2 h3⟩
      · rintro ⟨h1, h2⟩
        exact ⟨⟨h1, fun hr => h2 (Or.inl hr)⟩, fun hr => h2 (Or.inr hr)⟩

theorem unresolvedRefs_eq_nil_iff (args refs : List GName) :
    unresolvedRefs args refs = [] ↔ ∀ r ∈ refs, r ∈ args := by
  unfold unresolvedRefs
  rw [List.eq_nil_iff_forall_not_mem]
  constructor
  · intro h r hr
    by_contra hna
    exact h r ((foldl_filter_mem args (uniqueList refs) r).mpr
      ⟨(mem_uniqueList r refs).mpr hr, hna⟩)
  · intro h r hc
    rw [foldl_filter_mem] at hc
    exact hc.2 (h r ((mem_uniqueList r refs).mp hc.1))

theorem keepTriple_iff (t : Triple) :
    keepTriple t = true ↔ ∀ r ∈ t.refs, r ∈ t.args := by
  unfold keepTriple
  rw [List.isEmpty_iff, unresolvedRefs_eq_nil_iff]

theorem keepTriple_eq_decide (t : Triple) :
    keepTriple t = decide (∀ r ∈ t.refs, r ∈ t.args) := by
  by_cases h : ∀ r ∈ t.refs, r ∈ t.args
  · rw [(keepTriple_iff t).mpr h, decide_eq_true h]
  · have h1 : keepTriple t ≠ true := fun hc => h ((keepTriple_iff t).mp hc)
    have h2 : keepTriple t = false := by
      cases hb : keepTriple t
      · rfl
      · exact absurd hb h1
    rw [h2, decide_eq_false h]

theorem normalizeSeq_ok_elim {ctx : Context} {s : RSeq} {inner : List Triple}
    (h : normalizeSeq ctx s = .ok inner) :
    ∃ ts0, dispatchSeq ctx s = .ok ts0 ∧ seqCombine ts0 = inner := by
  unfold normalizeSeq at h
  cases hd : dispatchSeq ctx s with
  | error e =>
      rw [hd] at h
      simp only [Except.map] at h
      exact Except.noConfusion h
  | ok ts0 =>
      rw [hd] at h
      simp only [Except.map] at h
      injection h with h2
      exact ⟨ts0, rfl, h2⟩

theorem exceptMap_ne_invalid {α β : Type} (f : α → β) (r : Except RErr α)
    (h : r ≠ .error .invalidGroupName) :
    Except.map f r ≠ .error .invalidGroupName := by
  cases r with
  | error e =>
      intro hc
      simp only [Except.map] at hc
      injection hc with he
      exact h (by rw [he])
  | ok a => simp [Except.map]

/-- C1: every (template, placeholders) pair yielded by normalize comes from
a combinator triple whose referenced names are all among its required
names; the resolver discards exactly the triples whose referenced set is
not a subset of their required set and emits the survivors as
(template, required-list) pairs, dropping the referenced set. -/
theorem c1_backref_soundness (tree : RSeq) (gd : List (GName × Nat))
    (ts : List Triple)
    (h : normalizeSeq ⟨reverseGroupdict gd, false⟩ tree = .ok ts) :
    normalize tree gd =
      .ok ((ts.filter (fun t => decide (∀ r ∈ t.refs, r ∈ t.args))).map
        (fun t => (t.fmt, t.args))) ∧
    ∀ p ∈ (ts.filter (fun t => decide (∀ r ∈ t.refs, r ∈ t.args))).map
        (fun t => (t.fmt, t.args)),
      ∃ t ∈ ts, p = (t.fmt, t.args) ∧ ∀ r ∈ t.refs, r ∈ t.args := by
  constructor
  · have hf : ts.filter keepTriple =
        ts.filter (fun t => decide (∀ r ∈ t.refs, r ∈ t.args)) :=
      List.filter_congr (fun t _ => keepTriple_eq_decide t)
    unfold normalize
    rw [h]
    show Except.ok ((ts.filter keepTriple).map (fun t => (t.fmt, t.args))) = _
    rw [hf]
  · intro p hp
    rcases List.mem_map.mp hp with ⟨t, ht, rfl⟩
    rcases List.mem_filter.mp ht with ⟨hts, hd⟩
    exact ⟨t, hts, rfl, of_decide_eq_true hd⟩

/-- C1 witness: the theorem applied to the concrete one-group pattern
(groupP). -/
theorem c1_witness :
    normalizeSeq ⟨reverseGroupdict [], false⟩
      (seqOf [.subpattern (some 1) (seqOf [.literal 97])]) =
      .ok [⟨"%(_0)s", ["_0"], []⟩] ∧
    normalize (seqOf [.subpattern (some 1) (seqOf [.literal 97])]) [] =
      .ok ((([(⟨"%(_0)s", ["_0"], []⟩ : Triple)]).filter
        (fun t => decide (∀ r ∈ t.refs, r ∈ t.args))).map
        (fun t => (t.fmt, t.args))) :=
  ⟨by decide,
   (c1_backref_soundness (seqOf [.subpattern (some 1) (seqOf [.literal 97])])
     [] [⟨"%(_0)s", ["_0"], []⟩] (by decide)).1⟩

/-- C7: enumerating the AST of the optional named group pattern, test followed by an optional group named P, yields exactly the
template "test" with no placeholders followed by "test%(P)s" with
placeholder list ["P"], in that order. -/
theorem c7_concrete_optional_group :
    normalize (seqOf [.literal 116, .literal 101, .literal 115, .literal 116,
      .maxRepeat 0 1 (seqOf [.subpattern (some 1) (seqOf [.literal 103,
        .literal 114, .literal 111, .literal 117, .literal 112,
        .literal 80])])]) [("P", 1)] =
    .ok [("test", []), ("test%(P)s", ["P"])] := by decide

/-- C4: evaluating the code on the negated class for not-word characters,
i.e. the class written as caret followed by backslash-W.  The code yields
the character with code 33 (the exclamation mark), which is not a word
character: it lies in the set of allowed non-word characters, the very set
the category denotes, so the yielded witness is a member of the negated
set rather than a word character as the complement law demands.  The
CATEGORY_MAP entry for not-word stores the word-character set where every
sibling not-entry stores a complement, and the same class without the
negation of the category, caret followed by backslash-w, yields the very
same character. -/
theorem c4_notword_negation_eval :
    parseIn [.negate, .cat .notWord] = .ok [⟨charStr 33, [], []⟩] ∧
    charStr 33 = "!" ∧
    wordChars.contains 33 = false ∧
    (allowedURLChars.filter (fun c => !(wordChars.contains c))).contains 33
      = true ∧
    parseIn [.negate, .cat .word] = .ok [⟨charStr 33, [], []⟩] := by decide

/-- C10: for the negated class of not-space characters (caret followed by
backslash-S) the candidate set left after subtraction is empty, and the
enumeration aborts with the min-of-empty-sequence error, which is neither
the unsupported-category error nor the invalid-group-name error. -/
theorem c10_notspace_negation_empty :
    applyNegItems allowedURLChars [.cat .notSpace] = .ok [] ∧
    parseIn [.negate, .cat .notSpace] = .error .emptyClass ∧
    isUnsupportedOrInvalid .emptyClass = false := by decide

/-- C8: every placeholder list in a normalize output is duplicate-free,
and the unnamed back-reference pattern, an unnamed group followed by a
slash and a back-reference to it, shows that a back-referenced name can
nevertheless repeat its marker inside the template text. -/
theorem c8_unique_placeholders :
    (∀ (tree : RSeq) (gd : List (GName × Nat))
        (l : List (String × List GName)),
      normalize tree gd = .ok l → ∀ p ∈ l, p.2.Nodup) ∧
    normalize (seqOf [.subpattern (some 1) (seqOf [.inClass [.range 97 122]]),
      .literal 47, .groupref 1]) [] =
      .ok [("%(_0)s/%(_0)s", ["_0"])] := by
  constructor
  · intro tree gd l h p hp
    unfold normalize at h
    cases he : normalizeSeq ⟨reverseGroupdict gd, false⟩ tree with
    | error e => rw [he] at h; exact Except.noConfusion h
    | ok ts =>
        rw [he] at h
        injection h with h2
        subst h2
        rcases List.mem_map.mp hp with ⟨t, ht, rfl⟩
        have hts : t ∈ ts := (List.mem_filter.mp ht).1
        unfold normalizeSeq at he
        cases hd : dispatchSeq ⟨reverseGroupdict gd, false⟩ tree with
        | error e =>
            rw [hd] at he
            simp only [Except.map] at he
            exact Except.noConfusion he
        | ok ts0 =>
            rw [hd] at he
            simp only [Except.map] at he
            injection he with h3
            rw [← h3] at hts
            unfold seqCombine at hts
            rcases List.mem_map.mp hts with ⟨c, _, rfl⟩
            exact nodup_uniqueList _
  · decide

/-- C8 witness: the general part applied to a one-literal pattern. -/
theorem c8_witness :
    normalize (seqOf [.literal 97]) [] = .ok [("a", [])] ∧
    ∀ p ∈ [("a", ([] : List GName))], p.2.Nodup :=
  ⟨by decide,
   c8_unique_placeholders.1 (seqOf [.literal 97]) [] [("a", [])] (by decide)⟩

/-- C5: for MaxRepeat(min, max, sub) with max positive, the dispatcher
yields the zero-width triple exactly when min is zero, in front of all
other triples, and every triple of the subsequence is re-emitted with its
fragment repeated max(min, 1) times, except that when min is zero a
triple with empty required and referenced sets is suppressed. -/
theorem c5_max_repeat (ctx : Context) (mn mx : Nat) (sub : RSeq)
    (inner : List Triple) (hmx : 0 < mx)
    (hin : normalizeSeq ctx sub = .ok inner) :
    dispatchClause ctx (.maxRepeat mn mx sub) = .ok (
      (if mn = 0 then [⟨"", [], []⟩] else []) ++
      (inner.filter
        (fun t => decide (¬(mn = 0 ∧ t.args = [] ∧ t.refs = [])))).map
        (fun t => ⟨strRepeat t.fmt (max mn 1), t.args, t.refs⟩)) := by
  obtain ⟨ts0, hd, hc⟩ := normalizeSeq_ok_elim hin
  by_cases h0 : mn = 0
  · subst h0
    have hmx0 : ¬ mx = 0 := by omega
    have hpt : ∀ t ∈ inner, (!(t.args.isEmpty && t.refs.isEmpty)) =
        decide (¬((0 : Nat) = 0 ∧ t.args = [] ∧ t.refs = [])) := by
      intro t _
      cases t with
      | mk f a r => cases a <;> cases r <;> simp
    simp only [dispatchClause, hd, Except.map, hc, hmx0]
    rw [List.filter_congr hpt]
    simp
  · have hm : max mn 1 = mn := Nat.max_eq_left (Nat.one_le_iff_ne_zero.mpr h0)
    simp only [dispatchClause, hd, Except.map, hc, h0]
    simp [hm]

/-- C5 witness: the theorem applied to a star-quantified literal. -/
theorem c5_witness :
    normalizeSeq ⟨[], false⟩ (seqOf [.literal 97]) =
      .ok [⟨"a", [], []⟩] ∧
    dispatchClause ⟨[], false⟩ (.maxRepeat 0 1 (seqOf [.literal 97])) =
      .ok ((if (0 : Nat) = 0 then [⟨"", [], []⟩] else []) ++
        (([(⟨"a", [], []⟩ : Triple)]).filter
          (fun t => decide (¬((0 : Nat) = 0 ∧ t.args = [] ∧ t.refs = [])))).map
          (fun t => ⟨strRepeat t.fmt (max 0 1), t.args, t.refs⟩)) :=
  ⟨by decide,
   c5_max_repeat ⟨[], false⟩ 0 1 (seqOf [.literal 97]) [⟨"a", [], []⟩]
     (by decide) (by decide)⟩

/-- C2 counterexample: an unnamed capturing group whose subsequence
expands to a back-reference-only triple, with empty required set and
non-empty referenced set.  The claim says that inner triple is kept, but
the code outputs only the group-level triple: the inner filter tests the
required list alone. -/
theorem c2_counterexample :
    dispatchClause ⟨[(1, "a")], false⟩
      (.subpattern (some 2) (seqOf [.groupref 1, .literal 121])) =
      .ok [⟨"%(_1)s", ["_1"], []⟩] ∧
    normalizeSeq ⟨[(1, "a")], true⟩ (seqOf [.groupref 1, .literal 121]) =
      .ok [⟨"%(a)sy", [], ["a"]⟩] := by decide

/-- C2 (amended): for a capturing group each inner triple is kept if and
only if its required list is non-empty (referenced names do not count);
for a non-capturing group every inner triple is kept. -/
theorem c2_subpattern_retention (ctx : Context) (g : Nat) (sub : RSeq)
    (inner : List Triple) :
    (normalizeSeq ctx sub = .ok inner →
      dispatchClause ctx (.subpattern none sub) = .ok inner) ∧
    (∀ name, lookupName ctx.rev g = some name → badGroupName name = false →
      normalizeSeq ctx sub = .ok inner →
      dispatchClause ctx (.subpattern (some g) sub) =
        .ok (⟨marker name, [name], []⟩ ::
          inner.filter (fun t => !t.args.isEmpty))) ∧
    (lookupName ctx.rev g = none → ctx.inUnnamedGroup = false →
      normalizeSeq ⟨ctx.rev, true⟩ sub = .ok inner →
      dispatchClause ctx (.subpattern (some g) sub) =
        .ok (⟨marker (implicitName g), [implicitName g], []⟩ ::
          inner.filter (fun t => !t.args.isEmpty))) ∧
    (lookupName ctx.rev g = none → ctx.inUnnamedGroup = true →
      normalizeSeq ctx sub = .ok inner →
      dispatchClause ctx (.subpattern (some g) sub) =
        .ok (inner.filter (fun t => !t.args.isEmpty))) := by
  refine ⟨?_, ?_, ?_, ?_⟩
  · intro hin
    obtain ⟨ts0, hd, hc⟩ := normalizeSeq_ok_elim hin
    simp only [dispatchClause, hd, Except.map, hc]
  · intro name h1 h2 hin
    obtain ⟨ts0, hd, hc⟩ := normalizeSeq_ok_elim hin
    simp only [dispatchClause, h1, h2, hd, Except.map, hc, Bool.false_eq_true,
      if_false]
  · intro h1 h2 hin
    obtain ⟨ts0, hd, hc⟩ := normalizeSeq_ok_elim hin
    simp only [dispatchClause, h1, h2, hd, Except.map, hc, Bool.false_eq_true,
      if_false]
  · intro h1 h2 hin
    obtain ⟨ts0, hd, hc⟩ := normalizeSeq_ok_elim hin
    simp only [dispatchClause, h1, h2, hd, Except.map, hc, if_true]

/-- C2 witness: the amended theorem applied to a named group over a
literal subsequence. -/
theorem c2_witness :
    normalizeSeq ⟨[(1, "P")], false⟩ (seqOf [.literal 97]) =
      .ok [⟨"a", [], []⟩] ∧
    dispatchClause ⟨[(1, "P")], false⟩
      (.subpattern (some 1) (seqOf [.literal 97])) =
      .ok (⟨marker "P", ["P"], []⟩ ::
        ([(⟨"a", [], []⟩ : Triple)]).filter (fun t => !t.args.isEmpty)) :=
  ⟨by decide,
   (c2_subpattern_retention ⟨[(1, "P")], false⟩ 1 (seqOf [.literal 97])
     [⟨"a", [], []⟩]).2.1 "P" (by decide) (by decide) (by decide)⟩

/-- C3 counterexample: a named group with AST id 1 followed by an unnamed
group with AST id 2.  The unnamed group is the zeroth unnamed group of
the pattern, yet its implicit name is the underscore-1 name, computed
from its AST id over all groups, not from its ordinal among unnamed
groups; no underscore-0 placeholder appears in the output. -/
theorem c3_counterexample :
    normalize (seqOf [.subpattern (some 1) (seqOf [.literal 97]),
      .subpattern (some 2) (seqOf [.literal 98])]) [("A", 1)] =
      .ok [("%(A)s%(_1)s", ["A", "_1"])] ∧
    (["A", "_1"] : List GName).contains "_0" = false ∧
    implicitName 2 = "_1" := by decide

/-- C3 (amended): an unnamed capturing group reached with the
inUnnamedGroup flag false is assigned the implicit name underscore
followed by its AST numeric id minus one, where the AST id counts all
capturing groups, named ones included; the group-level triple carrying
that name is emitted first. -/
theorem c3_implicit_name (ctx : Context) (g : Nat) (sub : RSeq)
    (inner : List Triple)
    (h1 : lookupName ctx.rev g = none) (h2 : ctx.inUnnamedGroup = false)
    (h3 : normalizeSeq ⟨ctx.rev, true⟩ sub = .ok inner) :
    ∃ rest, dispatchClause ctx (.subpattern (some g) sub) =
      .ok (⟨marker ("_" ++ Nat.repr (g - 1)), ["_" ++ Nat.repr (g - 1)], []⟩
        :: rest) := by
  refine ⟨inner.filter (fun t => !t.args.isEmpty), ?_⟩
  obtain ⟨ts0, hd, hc⟩ := normalizeSeq_ok_elim h3
  simp only [dispatchClause, h1, h2, hd, Except.map, hc, implicitName,
    Bool.false_eq_true, if_false]

/-- C3 witness: the amended theorem applied to the unnamed group with AST
id 2 over a literal subsequence. -/
theorem c3_witness :
    normalizeSeq ⟨[], true⟩ (seqOf [.literal 98]) = .ok [⟨"b", [], []⟩] ∧
    ∃ rest, dispatchClause ⟨[], false⟩
      (.subpattern (some 2) (seqOf [.literal 98])) =
      .ok (⟨marker ("_" ++ Nat.repr (2 - 1)), ["_" ++ Nat.repr (2 - 1)], []⟩
        :: rest) :=
  ⟨by decide,
   c3_implicit_name ⟨[], false⟩ 2 (seqOf [.literal 98]) [⟨"b", [], []⟩]
     (by decide) (by decide) (by decide)⟩

/-- C9 counterexample: dispatching an unnamed capturing subpattern while
the inUnnamedGroup flag of the context is already true, over a subsequence
that produces one placeholder-free triple, yields no triple at all. -/
theorem c9_counterexample :
    dispatchClause ⟨[], true⟩ (.subpattern (some 2) (seqOf [.literal 97])) =
      .ok [] ∧
    normalizeSeq ⟨[], true⟩ (seqOf [.literal 97]) =
      .ok [⟨"a", [], []⟩] := by decide

/-- C9 (amended): every leaf node kind, that is literal, not-literal,
any-character, anchor and group back-reference, dispatches to at least
one candidate triple in every context; a capturing subpattern, however,
can dispatch to zero triples. -/
theorem c9_leaf_dispatch_nonempty (ctx : Context) (c g : Nat) :
    dispatchClause ctx (.literal c) = .ok [⟨charStr c, [], []⟩] ∧
    dispatchClause ctx .anyChar = .ok [⟨".", [], []⟩] ∧
    dispatchClause ctx .atAnchor = .ok [⟨"", [], []⟩] ∧
    (∃ t, dispatchClause ctx (.groupref g) = .ok [t]) ∧
    (∃ m, dispatchClause ctx (.notLiteral c) = .ok [⟨charStr m, [], []⟩]) := by
  refine ⟨rfl, rfl, rfl, ⟨_, rfl⟩, ?_⟩
  have hne : allowedURLChars.filter (fun x => decide (x ≠ c)) ≠ [] := by
    by_cases h33 : c = 33
    · subst h33
      intro hnil
      have hm : (34 : Nat) ∈ allowedURLChars.filter
          (fun x => decide (x ≠ 33)) := by decide
      rw [hnil] at hm
      exact List.not_mem_nil _ hm
    · intro hnil
      have h1 : (33 : Nat) ∈ allowedURLChars := by decide
      have hm : (33 : Nat) ∈ allowedURLChars.filter
          (fun x => decide (x ≠ c)) :=
        List.mem_filter.mpr ⟨h1, decide_eq_true (fun hc => h33 hc.symm)⟩
      rw [hnil] at hm
      exact List.not_mem_nil _ hm
  cases hl : allowedURLChars.filter (fun x => decide (x ≠ c)) with
  | nil => exact absurd hl hne
  | cons x xs =>
      refine ⟨listMinFrom x xs, ?_⟩
      simp only [dispatchClause, hl, minChar]

theorem minChar_ne_invalid (l : List Nat) :
    minChar l ≠ .error .invalidGroupName := by
  cases l <;> simp [minChar]

theorem removeItem_ne_invalid (cand : List Nat) (item : InItem) :
    removeItem cand item ≠ .error .invalidGroupName := by
  cases item with
  | range lo hi => simp [removeItem]
  | cat cid => cases hcm : categoryMap cid <;> simp [removeItem, hcm]
  | lit c => simp [removeItem]
  | negate => simp [removeItem]

theorem applyNegItems_ne_invalid :
    ∀ (items : List InItem) (cand : List Nat),
      applyNegItems cand items ≠ .error .invalidGroupName := by
  intro items
  induction items with
  | nil => intro cand; simp [applyNegItems]
  | cons item rest ih =>
      intro cand
      simp only [applyNegItems]
      cases hri : removeItem cand item with
      | error e =>
          show Except.error e ≠ _
          intro hc
          injection hc with he
          exact removeItem_ne_invalid cand item (by rw [hri, he])
      | ok c2 =>
          exact ih c2

theorem parseIn_ne_invalid (items : List InItem) :
    parseIn items ≠ .error .invalidGroupName := by
  match items with
  | [] => simp [parseIn]
  | .negate :: rest =>
      simp only [parseIn]
      cases han : applyNegItems allowedURLChars rest with
      | error e =>
          show Except.error e ≠ _
          intro hc
          injection hc with he
          exact applyNegItems_ne_invalid rest allowedURLChars (by rw [han, he])
      | ok cand =>
          show (match minChar cand with
            | Except.error e => Except.error e
            | Except.ok m => Except.ok [(⟨charStr m, [], []⟩ : Triple)]) ≠ _
          cases hmc : minChar cand with
          | error e =>
              show Except.error e ≠ _
              intro hc
              injection hc with he
              exact minChar_ne_invalid cand (by rw [hmc, he])
          | ok m =>
              show Except.ok _ ≠ _
              simp
  | .lit c :: _ => simp [parseIn]
  | .cat cid :: _ =>
      simp only [parseIn]
      cases hcm : categoryMap cid with
      | some e =>
          show Except.ok _ ≠ _
          simp
      | none =>
          show Except.error _ ≠ _
          simp
  | .range lo hi :: _ => simp [parseIn]

mutual
theorem dispatchClause_no_invalid (rev : List (Nat × GName)) :
    ∀ (n : RNode) (b : Bool), nodeNoBad rev n = true →
      dispatchClause ⟨rev, b⟩ n ≠ Except.error RErr.invalidGroupName
  | .literal c, b, h => by simp [dispatchClause]
  | .notLiteral c, b, h => by
      simp only [dispatchClause]
      cases hmc : minChar (allowedURLChars.filter (fun x => decide (x ≠ c))) with
      | error e =>
          show Except.error e ≠ _
          intro hc
          injection hc with he
          exact minChar_ne_invalid _ (by rw [hmc, he])
      | ok m =>
          show Except.ok _ ≠ _
          simp
  | .anyChar, b, h => by simp [dispatchClause]
  | .atAnchor, b, h => by simp [dispatchClause]
  | .inClass items, b, h => by
      simp only [dispatchClause]
      exact parseIn_ne_invalid items
  | .groupref g, b, h => by simp [dispatchClause]
  | .branch alts, b, h => by
      simp only [dispatchClause]
      exact dispatchAlts_no_invalid rev alts b (by simpa [nodeNoBad] using h)
  | .maxRepeat mn mx sub, b, h => by
      have hsub : seqNoBad rev sub = true := by simpa [nodeNoBad] using h
      have hseq := dispatchSeq_no_invalid rev sub b hsub
      simp only [dispatchClause]
      by_cases h0 : mn = 0
      · rw [if_pos h0]
        by_cases hx : mx = 0
        · rw [if_pos hx]
          simp
        · rw [if_neg hx]
          exact exceptMap_ne_invalid _ _ (exceptMap_ne_invalid _ _ hseq)
      · rw [if_neg h0]
        exact exceptMap_ne_invalid _ _ (exceptMap_ne_invalid _ _ hseq)
  | .subpattern none sub, b, h => by
      have hsub : seqNoBad rev sub = true := by simpa [nodeNoBad] using h
      simp only [dispatchClause]
      exact exceptMap_ne_invalid _ _ (dispatchSeq_no_invalid rev sub b hsub)
  | .subpattern (some g) sub, b, h => by
      simp only [nodeNoBad, Bool.and_eq_true] at h
      obtain ⟨hname, hsub⟩ := h
      simp only [dispatchClause]
      cases hlk : lookupName rev g with
      | some name =>
          rw [hlk] at hname
          have hbn : badGroupName name = false := by simpa using hname
          show (if badGroupName name = true then _ else _) ≠ _
          rw [hbn, if_neg Bool.false_ne_true]
          exact exceptMap_ne_invalid _ _
            (exceptMap_ne_invalid _ _ (dispatchSeq_no_invalid rev sub b hsub))
      | none =>
          cases b with
          | true =>
              show (if true = true then _ else _) ≠ _
              rw [if_pos rfl]
              exact exceptMap_ne_invalid _ _
                (exceptMap_ne_invalid _ _ (dispatchSeq_no_invalid rev sub true hsub))
          | false =>
              show (if false = true then _ else _) ≠ _
              rw [if_neg Bool.false_ne_true]
              exact exceptMap_ne_invalid _ _
                (exceptMap_ne_invalid _ _ (dispatchSeq_no_invalid rev sub true hsub))
theorem dispatchSeq_no_invalid (rev : List (Nat × GName)) :
    ∀ (s : RSeq) (b : Bool), seqNoBad rev s = true →
      dispatchSeq ⟨rev, b⟩ s ≠ Except.error RErr.invalidGroupName
  | .nil, b, h => by simp [dispatchSeq]
  | .cons n s, b, h => by
      simp only [seqNoBad, Bool.and_eq_true] at h
      obtain ⟨hn, hs⟩ := h
      simp only [dispatchSeq]
      cases hdc : dispatchClause ⟨rev, b⟩ n with
      | error e =>
          show Except.error e ≠ _
          intro hc
          injection hc with he
          exact dispatchClause_no_invalid rev n b hn (by rw [hdc, he])
      | ok t =>
          cases hds : dispatchSeq ⟨rev, b⟩ s with
          | error e =>
              show Except.error e ≠ _
              intro hc
              injection hc with he
              exact dispatchSeq_no_invalid rev s b hs (by rw [hds, he])
          | ok ts =>
              show Except.ok _ ≠ _
              simp
theorem dispatchAlts_no_invalid (rev : List (Nat × GName)) :
    ∀ (al : RAlts) (b : Bool), altsNoBad rev al = true →
      dispatchAlts ⟨rev, b⟩ al ≠ Except.error RErr.invalidGroupName
  | .nil, b, h => by simp [dispatchAlts]
  | .cons a rest, b, h => by
      simp only [altsNoBad, Bool.and_eq_true] at h
      obtain ⟨ha, hr⟩ := h
      simp only [dispatchAlts]
      cases hda : Except.map seqCombine (dispatchSeq ⟨rev, b⟩ a) with
      | error e =>
          show Except.error e ≠ _
          intro hc
          injection hc with he
          refine exceptMap_ne_invalid seqCombine (dispatchSeq ⟨rev, b⟩ a)
            (dispatchSeq_no_invalid rev a b ha) ?_
          rw [hda, he]
      | ok ts =>
          cases hdr : dispatchAlts ⟨rev, b⟩ rest with
          | error e =>
              show Except.error e ≠ _
              intro hc
              injection hc with he
              exact dispatchAlts_no_invalid rev rest b hr (by rw [hdr, he])
          | ok rs =>
              show Except.ok _ ≠ _
              simp
end

/-- C6: the enumeration fails with the invalid-group-name error exactly
for declared names of the reserved shape, an underscore followed by one
or more digits: the AST of a group declared with name underscore-1 raises it, any processed
subpattern whose group id maps to such a declared name raises it, and on
a tree none of whose subpatterns carries such a declared name the
enumeration never produces that error. -/
theorem c6_invalid_group_name :
    normalize (seqOf [.subpattern (some 1) (seqOf [.literal 103, .literal 114,
      .literal 111, .literal 117, .literal 112])]) [("_1", 1)] =
      .error .invalidGroupName ∧
    (∀ (ctx : Context) (g : Nat) (sub : RSeq) (name : GName),
      lookupName ctx.rev g = some name → badGroupName name = true →
      dispatchClause ctx (.subpattern (some g) sub) =
        .error .invalidGroupName) ∧
    (∀ (tree : RSeq) (gd : List (GName × Nat)),
      seqNoBad (reverseGroupdict gd) tree = true →
      normalize tree gd ≠ .error .invalidGroupName) := by
  refine ⟨by decide, ?_, ?_⟩
  · intro ctx g sub name h1 h2
    simp [dispatchClause, h1, h2]
  · intro tree gd h hc
    unfold normalize at hc
    cases he : normalizeSeq ⟨reverseGroupdict gd, false⟩ tree with
    | error e =>
        rw [he] at hc
        have he2 : e = .invalidGroupName := by injection hc
        subst he2
        unfold normalizeSeq at he
        exact exceptMap_ne_invalid seqCombine
          (dispatchSeq ⟨reverseGroupdict gd, false⟩ tree)
          (dispatchSeq_no_invalid (reverseGroupdict gd) tree false h) he
    | ok ts =>
        rw [he] at hc
        exact Except.noConfusion hc

/-- C6 witness: the raises direction at a concrete bad name and the
never-raises direction at a concrete clean pattern. -/
theorem c6_witness :
    dispatchClause ⟨[(1, "_7")], false⟩ (.subpattern (some 1) RSeq.nil) =
      .error .invalidGroupName ∧
    normalize (seqOf [.literal 97]) [] ≠ .error .invalidGroupName :=
  ⟨c6_invalid_group_name.2.1 ⟨[(1, "_7")], false⟩ 1 RSeq.nil "_7"
      (by decide) (by decide),
   c6_invalid_group_name.2.2 (seqOf [.literal 97]) [] (by decide)⟩

end BetterRegex
